import Mathlib

/-!
Verification of the BookSorter classification core (`sort_books.py`).

A shallow embedding of the classification engine of `sort_books.py`:
text normalization (`normalize_name`), matching rules (`Pattern`),
the hierarchical category model (`Group`), the recursive descendant-first
classifier (`match_file_recursively`), group-forest construction from a
parsed configuration (`build_groups_from_config`), and the placement
planner (the priority sort in `process_all`).

Python strings are modelled as `List Char`.  `str.lower` is modelled by
`Char.toLower` (ASCII case mapping); the whitespace class of `re`'s `\s`
and of `str.strip` is modelled by `isWsChar`.  The Python `re` engine used
by `regex:` alternatives is an external collaborator and is modelled as an
oracle `Rx` that either returns a search result or a compilation error
(`re.error`), which `Pattern.matches` catches.
-/

namespace SortBooks

/-- Python strings are modelled as lists of characters. -/
abbrev Str := List Char

/-- Characters of a Lean string literal, used to transcribe Python string
literals from the source. -/
def chars (s : String) : Str := s.data

/-- The separator class of `re.sub(r'[._\-]+', ' ', name)` in
`normalize_name` (source line 31): `.`, `_` and `-`. -/
abbrev sepProp (n : Nat) : Prop := n = 46 ∨ n = 95 ∨ n = 45

/-- Decidable test for the separator class `[._\-]`. -/
def isSepChar (c : Char) : Bool := decide (sepProp c.toNat)

/-- The whitespace class of `re`'s `\s` (and of `str.strip`): space, the
ASCII control whitespace, and the Unicode space code points. -/
abbrev wsProp (n : Nat) : Prop :=
  n = 32 ∨ (9 ≤ n ∧ n ≤ 13) ∨ (28 ≤ n ∧ n ≤ 31) ∨ n = 133 ∨ n = 160 ∨
  n = 5760 ∨ (8192 ≤ n ∧ n ≤ 8202) ∨ n = 8232 ∨ n = 8233 ∨ n = 8239 ∨
  n = 8287 ∨ n = 12288

/-- Decidable test for the whitespace class `\s`. -/
def isWsChar (c : Char) : Bool := decide (wsProp c.toNat)

/-- One pass of `re.sub(p+, r, s)`: replace every maximal run of
characters satisfying `p` by the single character `r`.  The flag records
whether the previous character belonged to a run. -/
def replRunsAux (p : Char → Bool) (r : Char) : Bool → Str → Str
  | _, [] => []
  | true, c :: cs =>
    if p c then replRunsAux p r true cs else c :: replRunsAux p r false cs
  | false, c :: cs =>
    if p c then r :: replRunsAux p r true cs else c :: replRunsAux p r false cs

/-- Model of `re.sub` of a character-class-plus pattern by a single character. -/
def replRuns (p : Char → Bool) (r : Char) (s : Str) : Str := replRunsAux p r false s

/-- Python `str.strip()` from the right: drop trailing whitespace. -/
def rstripWs (l : Str) : Str := (l.reverse.dropWhile isWsChar).reverse

/-- Python `str.strip()`: drop leading and trailing whitespace. -/
def stripWs (l : Str) : Str := rstripWs (l.dropWhile isWsChar)

/-- Model of `normalize_name` (source lines 30-33): collapse runs of `.`/`_`/`-` to
a single space, collapse whitespace runs to a single space, strip, and
lowercase. -/
def normalize_name (s : Str) : Str :=
  ((stripWs (replRuns isWsChar ' ' (replRuns isSepChar ' ' s))).map Char.toLower)

/-- Split a string at every occurrence of the character `sep` (Python
`str.split(sep)`). -/
def splitChar (sep : Char) : Str → List Str
  | [] => [[]]
  | c :: cs =>
    match splitChar sep cs with
    | [] => [[]]
    | r :: rs => if c = sep then [] :: r :: rs else (c :: r) :: rs

/-- Python's `needle in hay` on strings: contiguous substring test. -/
def isSubstr (needle : Str) : Str → Bool
  | [] => needle.isEmpty
  | c :: cs => needle.isPrefixOf (c :: cs) || isSubstr needle cs

/-- Model of `os.path.basename` (POSIX): the part of the path after the last `/`.
(source line 133) -/
def basename (p : Str) : Str := (p.reverse.takeWhile (fun c => c ≠ '/')).reverse

/-- The root part of `os.path.splitext` on a base name (no separators):
drop the extension beginning at the last `.`, unless every character
before that dot is itself a dot (as in `.bashrc`).  (source line 134) -/
def splitext_root (name : Str) : Str :=
  if name.contains '.' then
    let cand := (((name.reverse.dropWhile (fun c => c ≠ '.')).drop 1)).reverse
    if cand.any (fun c => c ≠ '.') then cand else name
  else name

/-- The normalized comparison key of a file path, as computed on source
lines 133-135: `normalize_name` of the base name with its extension
stripped. -/
def fileNorm (file_path : Str) : Str := normalize_name (splitext_root (basename file_path))

/-- The external regex collaborator (Python `re.search` with
`re.IGNORECASE | re.UNICODE`): given the regex text and the candidate
text, either a search result or a compilation failure (`re.error`). -/
abbrev Rx := Str → Str → Except Unit Bool

/-- A matching rule (class `Pattern`, source lines 41-45): the stripped
raw rule text, the list of stripped non-empty pipe-separated
alternatives, and the specificity score. -/
structure Pattern where
  raw : Str
  alternatives : List Str
  priority : Nat

/-- Constructor `Pattern.__init__` (source lines 42-45).  `re.split(r'\s*\|\s*', raw)`
splits at pipes and consumes the whitespace around each pipe; since every
piece is then stripped and empty pieces are discarded, this equals
splitting at `|` followed by the same strip-and-filter. -/
def mkPattern (raw0 : Str) : Pattern :=
  let raw := stripWs raw0
  let alternatives := ((splitChar '|' raw).map stripWs).filter (fun a => !a.isEmpty)
  { raw := raw
    alternatives := alternatives
    priority :=
      if alternatives.isEmpty then raw.length
      else (alternatives.map List.length).foldr max 0 }

/-- The reserved marker of a regex alternative (source line 49). -/
def regexMarker : Str := chars ("regex:")

/-- Evaluation of a single alternative inside `Pattern.matches` (source
lines 48-64): a `regex:` alternative consults the regex oracle and treats
a compilation error as non-matching (the `try`/`except re.error` on lines
51-55); an alternative containing `*` requires every normalized non-empty
`*`-separated segment to occur in the text; otherwise the normalized
alternative itself must occur in the text. -/
def altMatches (rx : Rx) (text_norm : Str) (alt : Str) : Bool :=
  if regexMarker.isPrefixOf alt then
    match rx (alt.drop regexMarker.length) text_norm with
    | Except.ok b => b
    | Except.error _ => false
  else if alt.contains '*' then
    let tokens := ((splitChar '*' alt).filter (fun t => !(stripWs t).isEmpty)).map normalize_name
    tokens.all (fun tok => isSubstr tok text_norm)
  else
    isSubstr (normalize_name alt) text_norm

/-- Method `Pattern.matches` (source lines 47-65): true iff some alternative
matches the (already normalized) text. -/
def Pattern.matches (rx : Rx) (p : Pattern) (text_norm : Str) : Bool :=
  p.alternatives.any (altMatches rx text_norm)

/-- A category node (class `Group`, source lines 69-75): a name, the
ordered child groups, and the include/exclude rule lists.  The non-owning
`parent` back-reference of the source is used only for `full_name`
computation and is not part of the matching model. -/
inductive Group where
  | mk (name : Str) (subgroups : List Group)
      (include_patterns exclude_patterns : List Pattern)

/-- The `name` field of a `Group`. -/
def Group.name : Group → Str
  | .mk n _ _ _ => n

/-- The `subgroups` field of a `Group`. -/
def Group.subgroups : Group → List Group
  | .mk _ s _ _ => s

/-- The `include_patterns` field of a `Group`. -/
def Group.include_patterns : Group → List Pattern
  | .mk _ _ i _ => i

/-- The `exclude_patterns` field of a `Group`. -/
def Group.exclude_patterns : Group → List Pattern
  | .mk _ _ _ e => e

/-- Model of `file_matches_group_name` (source lines 129-141): a group with no
include patterns never matches directly; otherwise the normalized
extension-stripped base name must match some include pattern and no
exclude pattern. -/
def file_matches_group_name (rx : Rx) (file_path : Str) (g : Group) : Bool :=
  if g.include_patterns.isEmpty then false
  else if !(g.include_patterns.any (fun p => p.matches rx (fileNorm file_path))) then false
  else if g.exclude_patterns.any (fun p => p.matches rx (fileNorm file_path)) then false
  else true

mutual
/-- Model of `match_file_recursively` (source lines 143-149): collect the matches
of all subgroups, depth-first and left-to-right; only when no descendant
matched test the group itself. -/
def match_file_recursively (rx : Rx) (file_path : Str) : Group → List Group
  | .mk n subs inc exc =>
    match match_file_list rx file_path subs with
    | [] =>
      if file_matches_group_name rx file_path (Group.mk n subs inc exc) then
        [Group.mk n subs inc exc]
      else []
    | m :: ms => m :: ms

/-- The `for sub in group.subgroups: matches.extend(...)` loop of source
lines 145-146 (also the per-file loop over top-level groups on source
lines 200-201). -/
def match_file_list (rx : Rx) (file_path : Str) : List Group → List Group
  | [] => []
  | g :: gs => match_file_recursively rx file_path g ++ match_file_list rx file_path gs
end

/-- A parsed configuration value that is either a single string or a list
of strings (the `isinstance(items, str)` coercion on source lines
105-106 and 111-112). -/
inductive ConfigField where
  | str (s : Str)
  | list (l : List Str)

/-- The `if isinstance(items, str): items = [items]` coercion. -/
def ConfigField.toStrList : ConfigField → List Str
  | .str s => [s]
  | .list l => l

/-- A parsed configuration node as consumed by
`build_groups_from_config`: the optional `name` and `Group` keys, the
optional `include`/`Include`/`exclude`/`Exclude` keys, and the
`groups`/`Groups` child lists.  In `node.get('groups', []) or
node.get('Groups', [])` an absent key and an empty list are
indistinguishable (both falsy), so the two child lists are modelled as
plain lists with the empty list standing for an absent key. -/
inductive ConfigNode where
  | mk (name groupKey : Option Str)
      (incL incU excL excU : Option ConfigField)
      (grpL grpU : List ConfigNode)

/-- The `name` key of a node. -/
def ConfigNode.name : ConfigNode → Option Str
  | .mk n _ _ _ _ _ _ _ => n

/-- The `Group` key of a node. -/
def ConfigNode.groupKey : ConfigNode → Option Str
  | .mk _ k _ _ _ _ _ _ => k

/-- The `include` key of a node. -/
def ConfigNode.incL : ConfigNode → Option ConfigField
  | .mk _ _ i _ _ _ _ _ => i

/-- The `Include` key of a node. -/
def ConfigNode.incU : ConfigNode → Option ConfigField
  | .mk _ _ _ i _ _ _ _ => i

/-- The `exclude` key of a node. -/
def ConfigNode.excL : ConfigNode → Option ConfigField
  | .mk _ _ _ _ e _ _ _ => e

/-- The `Exclude` key of a node. -/
def ConfigNode.excU : ConfigNode → Option ConfigField
  | .mk _ _ _ _ _ e _ _ => e

/-- The `groups` key of a node. -/
def ConfigNode.grpL : ConfigNode → List ConfigNode
  | .mk _ _ _ _ _ _ g _ => g

/-- The `Groups` key of a node. -/
def ConfigNode.grpU : ConfigNode → List ConfigNode
  | .mk _ _ _ _ _ _ _ g => g

/-- Python `node.get('name') or node.get('Group')` with Python truthiness (an
empty string is falsy), returning the effective name when truthy
(source line 98). -/
def effectiveName (n : ConfigNode) : Option Str :=
  match n.name with
  | some s => if s.isEmpty then (match n.groupKey with
      | some t => if t.isEmpty then none else some t
      | none => none) else some s
  | none =>
    match n.groupKey with
    | some t => if t.isEmpty then none else some t
    | none => none

/-- Python `node.get('groups', []) or node.get('Groups', [])` with Python
truthiness (an empty list is falsy), as on source line 114. -/
def effectiveChildren (n : ConfigNode) : List ConfigNode :=
  if n.grpL.isEmpty then n.grpU else n.grpL

/-- The patterns contributed by one optional include/exclude key: present
keys are coerced to a list of strings and converted one-to-one into
`Pattern`s (source lines 102-113). -/
def fieldPatterns : Option ConfigField → List Pattern
  | none => []
  | some f => f.toStrList.map mkPattern

/-- The configuration failure raised by `build_node` (source line 100,
`ValueError("Group without a name")`; the spec's `ConfigurationError`). -/
inductive ConfigurationError where
  | namelessGroup

mutual
/-- Model of `build_node` inside `build_groups_from_config` (source lines
97-117): fail on a nameless node, convert the include/exclude keys to
patterns, and recursively build the effective children (the `groups` key
when truthy, else the `Groups` key). -/
def build_node : ConfigNode → Except ConfigurationError Group
  | .mk nm gk iL iU eL eU gL gU =>
    match effectiveName (ConfigNode.mk nm gk iL iU eL eU gL gU) with
    | none => Except.error ConfigurationError.namelessGroup
    | some name =>
      match (if gL.isEmpty then build_nodes gU else build_nodes gL) with
      | Except.error e => Except.error e
      | Except.ok children =>
        Except.ok (Group.mk name children
          (fieldPatterns iL ++ fieldPatterns iU)
          (fieldPatterns eL ++ fieldPatterns eU))

/-- The recursive construction of the child list on source lines
114-116. -/
def build_nodes : List ConfigNode → Except ConfigurationError (List Group)
  | [] => Except.ok []
  | n :: ns =>
    match build_node n with
    | Except.error e => Except.error e
    | Except.ok g =>
      match build_nodes ns with
      | Except.error e => Except.error e
      | Except.ok gs => Except.ok (g :: gs)
end

/-- Model of `build_groups_from_config` (source lines 94-125) after the external
boundary has produced the list of top-level dict nodes (the
`config.get('groups') or config.get('Groups') or []` lookup and the
single-dict coercion of source lines 119-124). -/
def build_groups_from_config (top_nodes : List ConfigNode) :
    Except ConfigurationError (List Group) :=
  build_nodes top_nodes

/-- Whether a node carries an effective name (Python
`bool(node.get('name') or node.get('Group'))`). -/
def nodeNamed (n : ConfigNode) : Bool := !(effectiveName n).isNone

mutual
/-- All nodes visited by `build_node` starting from `n`: the node itself
and, recursively, its effective children. -/
def nodesOf : ConfigNode → List ConfigNode
  | .mk nm gk iL iU eL eU gL gU =>
    ConfigNode.mk nm gk iL iU eL eU gL gU ::
      (if gL.isEmpty then nodesOfList gU else nodesOfList gL)

/-- All nodes visited by `build_nodes`. -/
def nodesOfList : List ConfigNode → List ConfigNode
  | [] => []
  | n :: ns => nodesOf n ++ nodesOfList ns
end

/-- The key `max((p.priority for p in g.include_patterns), default=0)`, the sort
key used by `process_all` (source line 206). -/
def maxIncludePriority (g : Group) : Nat :=
  (g.include_patterns.map Pattern.priority).foldr max 0

/-- Stable insertion of a group into an already priority-sorted list: the
inserted group goes after every group of strictly greater priority and
before the first group of smaller or equal priority.  Because the input
list holds groups that occur later in the original order, ties keep the
original order. -/
def insertByPriority (x : Group) : List Group → List Group
  | [] => [x]
  | y :: ys =>
    if maxIncludePriority x < maxIncludePriority y then y :: insertByPriority x ys
    else x :: y :: ys

/-- The stable descending-priority sort
`sorted(matches, key=lambda g: -max(..., default=0))` of source line 206.
Python's `sorted` is a stable sort; insertion sort is its extensional
model. -/
def sortByPriority : List Group → List Group
  | [] => []
  | x :: xs => insertByPriority x (sortByPriority xs)

/-- The placement decision of `process_all` for one file (source lines
203-208): skip the file when no group matched, otherwise the head of the
priority-sorted match list is the primary placement and the remainder the
secondary placements. -/
def plan (ms : List Group) : Option (Group × List Group) :=
  match sortByPriority ms with
  | [] => none
  | p :: rest => some (p, rest)

/-! ## Concrete fixtures used by the witness theorems -/

/-- A regex oracle on which every regex search fails to compile; used to
instantiate the `Rx` collaborator on inputs whose patterns have no
(valid) regex alternative. -/
def rxFail : Rx := fun _ _ => Except.error ()

/-- The demo group `Python` with include rule `Python`. -/
def wGPython : Group := Group.mk (chars ("Python")) [] [mkPattern (chars ("Python"))] []

/-- A parent group whose own include rule also matches `Python` files,
with `wGPython` as its only subgroup. -/
def wGParent : Group :=
  Group.mk (chars ("IT")) [wGPython] [mkPattern (chars ("Python"))] []

/-- A purely organizational parent: no include patterns, one matching
subgroup. -/
def wGContainer : Group := Group.mk (chars ("Container")) [wGPython] [] []

/-- The demo group `Office` with include `Office` and exclude `Linux`. -/
def wGOffice : Group :=
  Group.mk (chars ("Office")) [] [mkPattern (chars ("Office"))] [mkPattern (chars ("Linux"))]

/-- The `Kids` root of spec scenario C. -/
def wGKids : Group := Group.mk (chars ("Kids")) [] [mkPattern (chars ("kids"))] []

/-- The `Biology` group of spec scenario C, with an include rule of the
same length (hence the same priority) as that of `wGKids`. -/
def wGBiology : Group := Group.mk (chars ("Biology")) [] [mkPattern (chars ("kids"))] []

/-- A sample file name matching the `Python` rule. -/
def wFilePython : Str := chars ("Python_Basics.pdf")

/-- A sample file name matching both `Office` (include) and `Linux`
(exclude). -/
def wFileOffice : Str := chars ("Office_on_Linux.epub")

/-- A path whose base name without extension is `Python_Basics`. -/
def wPathA : Str := chars ("books/a/Python_Basics.pdf")

/-- A different path with the same extension-stripped base name. -/
def wPathB : Str := chars ("other/Python_Basics.djvu")

/-- A nameless configuration node (no `name` and no `Group` key). -/
def wNodeBad : ConfigNode := ConfigNode.mk none none none none none none [] []

/-- A named configuration node whose only (effective) child is the
nameless node. -/
def wNodeTop : ConfigNode :=
  ConfigNode.mk (some (chars ("IT"))) none none none none none [wNodeBad] []

/-- A well-named configuration node with an include key. -/
def wNodeGood : ConfigNode :=
  ConfigNode.mk (some (chars ("Python"))) none
    (some (ConfigField.str (chars ("Python")))) none none none [] []

/-! ## Character-level lemmas -/

/-- Evaluating `Char.ofNat` of a valid scalar value has that value. -/
theorem char_toNat_ofNat_valid {n : Nat} (h : n.isValidChar) :
    (Char.ofNat n).toNat = n := by
  simp [Char.ofNat, h, Char.ofNatAux, Char.toNat, UInt32.toNat, BitVec.toNat_ofNatLt]

/-- Characters with equal scalar values are equal. -/
theorem char_eq_of_toNat_eq {a b : Char} (h : a.toNat = b.toNat) : a = b := by
  have ha := Char.ofNat_toNat a
  rw [h, Char.ofNat_toNat] at ha
  exact ha.symm

/-- The scalar value of `Char.toLower`: shifted by 32 on `A`-`Z`,
unchanged elsewhere. -/
theorem toLower_toNat (c : Char) :
    (Char.toLower c).toNat =
      if 65 ≤ c.toNat ∧ c.toNat ≤ 90 then c.toNat + 32 else c.toNat := by
  unfold Char.toLower
  split
  · next h =>
    rw [if_pos ⟨h.1, h.2⟩]
    exact char_toNat_ofNat_valid (Or.inl (by omega))
  · next h => rw [if_neg h]

/-- Lowercasing is idempotent. -/
theorem toLower_idem (c : Char) :
    Char.toLower (Char.toLower c) = Char.toLower c := by
  apply char_eq_of_toNat_eq
  rw [toLower_toNat (Char.toLower c), toLower_toNat c]
  split <;> (try split) <;> omega

/-- Lowercasing does not change membership in the whitespace class. -/
theorem isWs_toLower (c : Char) : isWsChar (Char.toLower c) = isWsChar c := by
  unfold isWsChar
  rw [decide_eq_decide, toLower_toNat c]
  split <;> omega

/-- Lowercasing does not change membership in the separator class. -/
theorem isSep_toLower (c : Char) : isSepChar (Char.toLower c) = isSepChar c := by
  unfold isSepChar
  rw [decide_eq_decide, toLower_toNat c]
  split <;> omega

/-! ## `replRuns` lemmas -/

/-- Every character of a `replRunsAux` output is the replacement or an
input character. -/
theorem mem_replRunsAux {p : Char → Bool} {r : Char} :
    ∀ {b : Bool} {l : Str} {c : Char}, c ∈ replRunsAux p r b l → c = r ∨ c ∈ l := by
  intro b l
  induction l generalizing b with
  | nil => intro c h; cases b <;> simp [replRunsAux] at h
  | cons x xs ih =>
    intro c h
    by_cases hp : p x
    · cases b with
      | true =>
        rw [replRunsAux, if_pos hp] at h
        rcases ih h with h1 | h2
        · exact Or.inl h1
        · exact Or.inr (List.mem_cons_of_mem _ h2)
      | false =>
        rw [replRunsAux, if_pos hp] at h
        rcases List.mem_cons.mp h with h1 | h2
        · exact Or.inl h1
        · rcases ih h2 with h3 | h4
          · exact Or.inl h3
          · exact Or.inr (List.mem_cons_of_mem _ h4)
    · cases b <;> rw [replRunsAux, if_neg hp] at h <;>
        rcases List.mem_cons.mp h with h1 | h2
      · exact Or.inr (h1 ▸ List.mem_cons_self _ _)
      · rcases ih h2 with h3 | h4
        · exact Or.inl h3
        · exact Or.inr (List.mem_cons_of_mem _ h4)
      · exact Or.inr (h1 ▸ List.mem_cons_self _ _)
      · rcases ih h2 with h3 | h4
        · exact Or.inl h3
        · exact Or.inr (List.mem_cons_of_mem _ h4)

/-- When the replacement character is outside the class, no output
character is in the class. -/
theorem replRunsAux_not_p {p : Char → Bool} {r : Char} (hpr : p r = false) :
    ∀ {b : Bool} {l : Str} {c : Char}, c ∈ replRunsAux p r b l → p c = false := by
  intro b l
  induction l generalizing b with
  | nil => intro c h; cases b <;> simp [replRunsAux] at h
  | cons x xs ih =>
    intro c h
    by_cases hp : p x
    · cases b with
      | true =>
        rw [replRunsAux, if_pos hp] at h
        exact ih h
      | false =>
        rw [replRunsAux, if_pos hp] at h
        rcases List.mem_cons.mp h with h1 | h2
        · rw [h1]; exact hpr
        · exact ih h2
    · cases b <;> rw [replRunsAux, if_neg hp] at h <;>
        rcases List.mem_cons.mp h with h1 | h2
      · rw [h1]; exact Bool.eq_false_iff.mpr hp
      · exact ih h2
      · rw [h1]; exact Bool.eq_false_iff.mpr hp
      · exact ih h2

/-- A list with no character in the class is a fixed point of
`replRunsAux`. -/
theorem replRunsAux_eq_self {p : Char → Bool} {r : Char} {l : Str}
    (h : ∀ c ∈ l, p c = false) (b : Bool) : replRunsAux p r b l = l := by
  induction l generalizing b with
  | nil => cases b <;> rw [replRunsAux]
  | cons x xs ih =>
    have hx : ¬ p x = true := by
      have := h x (List.mem_cons_self _ _); simp [this]
    cases b <;> rw [replRunsAux, if_neg hx] <;>
      rw [ih (fun c hc => h c (List.mem_cons_of_mem _ hc))]

/-- Every class character of a `replRunsAux` output is the replacement
character. -/
theorem replRunsAux_p_eq_r {p : Char → Bool} {r : Char} :
    ∀ {b : Bool} {l : Str} {c : Char}, c ∈ replRunsAux p r b l → p c = true → c = r := by
  intro b l
  induction l generalizing b with
  | nil => intro c h; cases b <;> simp [replRunsAux] at h
  | cons x xs ih =>
    intro c h hc
    by_cases hp : p x
    · cases b with
      | true =>
        rw [replRunsAux, if_pos hp] at h
        exact ih h hc
      | false =>
        rw [replRunsAux, if_pos hp] at h
        rcases List.mem_cons.mp h with h1 | h2
        · exact h1
        · exact ih h2 hc
    · cases b <;> rw [replRunsAux, if_neg hp] at h <;>
        rcases List.mem_cons.mp h with h1 | h2
      · rw [h1] at hc; rw [hc] at hp; exact absurd rfl hp
      · exact ih h2 hc
      · rw [h1] at hc; rw [hc] at hp; exact absurd rfl hp
      · exact ih h2 hc

/-- Adjacency invariant of `replRunsAux`: the output never holds two
adjacent class characters, and in the in-run state the output starts with
a non-class character. -/
theorem replRunsAux_chain {p : Char → Bool} {r : Char} (l : Str) :
    (∀ c, (replRunsAux p r true l).head? = some c → p c = false) ∧
    (replRunsAux p r true l).Chain' (fun a b => p a = false ∨ p b = false) ∧
    (replRunsAux p r false l).Chain' (fun a b => p a = false ∨ p b = false) := by
  induction l with
  | nil => refine ⟨fun c h => by simp [replRunsAux] at h, ?_, ?_⟩ <;> simp [replRunsAux]
  | cons x xs ih =>
    obtain ⟨ih1, ih2, ih3⟩ := ih
    by_cases hp : p x
    · have houtT : replRunsAux p r true (x :: xs) = replRunsAux p r true xs := by
        rw [replRunsAux, if_pos hp]
      have houtF : replRunsAux p r false (x :: xs) = r :: replRunsAux p r true xs := by
        rw [replRunsAux, if_pos hp]
      refine ⟨?_, ?_, ?_⟩
      · intro c h; rw [houtT] at h; exact ih1 c h
      · rw [houtT]; exact ih2
      · rw [houtF]
        refine List.chain'_cons'.mpr ⟨?_, ih2⟩
        intro y hy
        exact Or.inr (ih1 y hy)
    · have houtT : replRunsAux p r true (x :: xs) = x :: replRunsAux p r false xs := by
        rw [replRunsAux, if_neg hp]
      have houtF : replRunsAux p r false (x :: xs) = x :: replRunsAux p r false xs := by
        rw [replRunsAux, if_neg hp]
      have hchain : (x :: replRunsAux p r false xs).Chain'
          (fun a b => p a = false ∨ p b = false) := by
        refine List.chain'_cons'.mpr ⟨?_, ih3⟩
        intro y _
        exact Or.inl (Bool.eq_false_iff.mpr hp)
      refine ⟨?_, ?_, ?_⟩
      · intro c h
        rw [houtT] at h
        simp only [List.head?_cons, Option.some.injEq] at h
        rw [← h]
        exact Bool.eq_false_iff.mpr hp
      · rw [houtT]; exact hchain
      · rw [houtF]; exact hchain

/-- Fixed-point lemma for `replRunsAux`: a list whose class characters
are all the replacement character and never adjacent is unchanged. -/
theorem replRunsAux_fix {p : Char → Bool} {r : Char} :
    ∀ {l : Str} {b : Bool},
      (∀ c ∈ l, p c = true → c = r) →
      l.Chain' (fun a b => p a = false ∨ p b = false) →
      (b = true → ∀ c, l.head? = some c → p c = false) →
      replRunsAux p r b l = l := by
  intro l
  induction l with
  | nil => intro b _ _ _; cases b <;> rw [replRunsAux]
  | cons x xs ih =>
    intro b h1 h2 hb
    by_cases hp : p x
    · cases b with
      | true =>
        have := hb rfl x (by simp)
        rw [this] at hp; simp at hp
      | false =>
        rw [replRunsAux, if_pos hp]
        have hxr : x = r := h1 x (List.mem_cons_self _ _) hp
        have hxs : replRunsAux p r true xs = xs := by
          apply ih
          · exact fun c hc => h1 c (List.mem_cons_of_mem _ hc)
          · exact (List.chain'_cons'.mp h2).2
          · intro _ c hc
            rcases (List.chain'_cons'.mp h2).1 c hc with h | h
            · rw [hp] at h; exact absurd h (by simp)
            · exact h
        rw [hxs, hxr]
    · have htail : replRunsAux p r false xs = xs :=
        ih (fun c hc => h1 c (List.mem_cons_of_mem _ hc))
          (List.chain'_cons'.mp h2).2 (fun hf => by cases hf)
      cases b <;> rw [replRunsAux, if_neg hp] <;> rw [htail]

/-! ## `stripWs` lemmas -/

/-- The head of `dropWhile p` never satisfies `p`. -/
theorem head?_dropWhile_not (p : Char → Bool) (l : Str) :
    ∀ c, (l.dropWhile p).head? = some c → p c = false := by
  induction l with
  | nil => intro c h; simp at h
  | cons x xs ih =>
    intro c h
    rw [List.dropWhile_cons] at h
    by_cases hp : p x
    · rw [if_pos hp] at h; exact ih c h
    · rw [if_neg hp] at h
      simp only [List.head?_cons, Option.some.injEq] at h
      rw [← h]; exact Bool.eq_false_iff.mpr hp

/-- A list whose head does not satisfy `p` is a fixed point of
`dropWhile p`. -/
theorem dropWhile_eq_self_of_head (p : Char → Bool) (l : Str)
    (h : ∀ c, l.head? = some c → p c = false) : l.dropWhile p = l := by
  cases l with
  | nil => rfl
  | cons x xs =>
    rw [List.dropWhile_cons, if_neg]
    have := h x rfl
    simp [this]

/-- The right-strip `rstripWs` is a prefix of its argument. -/
theorem rstripWs_prefix_self (l : Str) : rstripWs l <+: l := by
  unfold rstripWs
  conv_rhs => rw [← List.reverse_reverse l]
  exact List.reverse_prefix.mpr (List.dropWhile_suffix _)

/-- The strip `stripWs` is an infix of its argument. -/
theorem stripWs_infix_self (l : Str) : stripWs l <:+: l := by
  unfold stripWs
  have h1 : rstripWs (l.dropWhile isWsChar) <+: l.dropWhile isWsChar := rstripWs_prefix_self _
  have h2 : l.dropWhile isWsChar <:+ l := List.dropWhile_suffix _
  exact List.IsInfix.trans (List.IsPrefix.isInfix h1) (List.IsSuffix.isInfix h2)

/-- The head of a non-empty prefix is the head of the longer list. -/
theorem head?_mono {l₁ l₂ : Str} (h : l₁ <+: l₂) {c : Char}
    (hc : l₁.head? = some c) : l₂.head? = some c := by
  obtain ⟨t, ht⟩ := h
  cases l₁ with
  | nil => simp at hc
  | cons x xs =>
    simp only [List.head?_cons, Option.some.injEq] at hc
    rw [← ht]
    simp [hc]

/-- The head of a stripped string is not whitespace. -/
theorem stripWs_head (l : Str) :
    ∀ c, (stripWs l).head? = some c → isWsChar c = false := by
  intro c h
  have h2 := head?_mono (rstripWs_prefix_self (l.dropWhile isWsChar)) h
  exact head?_dropWhile_not isWsChar l c h2

/-- The last character of a stripped string is not whitespace. -/
theorem stripWs_getLast (l : Str) :
    ∀ c, (stripWs l).getLast? = some c → isWsChar c = false := by
  intro c h
  unfold stripWs rstripWs at h
  rw [List.getLast?_reverse] at h
  exact head?_dropWhile_not isWsChar _ c h

/-- A string with no leading and no trailing whitespace is a fixed point
of `stripWs`. -/
theorem stripWs_eq_self {l : Str}
    (hh : ∀ c, l.head? = some c → isWsChar c = false)
    (hl : ∀ c, l.getLast? = some c → isWsChar c = false) : stripWs l = l := by
  unfold stripWs rstripWs
  rw [dropWhile_eq_self_of_head _ _ hh]
  rw [dropWhile_eq_self_of_head _ _ (by rw [List.head?_reverse]; exact hl)]
  exact List.reverse_reverse l

/-! ## Invariants of `normalize_name` and idempotence -/

/-- No character of a normalized string is a separator. -/
theorem norm_no_sep (s : Str) : ∀ c ∈ normalize_name s, isSepChar c = false := by
  intro c hc
  unfold normalize_name at hc
  obtain ⟨d, hd, hcd⟩ := List.mem_map.mp hc
  rw [← hcd, isSep_toLower]
  have hd2 : d ∈ replRuns isWsChar ' ' (replRuns isSepChar ' ' s) :=
    List.IsInfix.subset (stripWs_infix_self _) hd
  rcases mem_replRunsAux hd2 with h1 | h2
  · rw [h1]; rfl
  · exact replRunsAux_not_p (by rfl) h2

/-- Every whitespace character of a normalized string is a plain
space. -/
theorem norm_ws_space (s : Str) :
    ∀ c ∈ normalize_name s, isWsChar c = true → c = ' ' := by
  intro c hc hw
  unfold normalize_name at hc
  obtain ⟨d, hd, hcd⟩ := List.mem_map.mp hc
  have hwd : isWsChar d = true := by rw [← isWs_toLower, hcd, hw]
  have hd2 : d ∈ replRuns isWsChar ' ' (replRuns isSepChar ' ' s) :=
    List.IsInfix.subset (stripWs_infix_self _) hd
  have hds : d = ' ' := replRunsAux_p_eq_r hd2 hwd
  rw [← hcd, hds]
  rfl

/-- A normalized string never holds two adjacent whitespace
characters. -/
theorem norm_chain (s : Str) :
    (normalize_name s).Chain' (fun a b => isWsChar a = false ∨ isWsChar b = false) := by
  unfold normalize_name
  rw [List.chain'_map]
  have h1 : (replRuns isWsChar ' ' (replRuns isSepChar ' ' s)).Chain'
      (fun a b => isWsChar a = false ∨ isWsChar b = false) :=
    (replRunsAux_chain _).2.2
  have h2 := List.Chain'.infix h1 (stripWs_infix_self _)
  exact h2.imp (fun a b hab => by rwa [isWs_toLower, isWs_toLower])

/-- A normalized string has no leading whitespace. -/
theorem norm_head (s : Str) :
    ∀ c, (normalize_name s).head? = some c → isWsChar c = false := by
  intro c h
  unfold normalize_name at h
  rw [List.head?_map] at h
  obtain ⟨d, hd, hdc⟩ := Option.map_eq_some'.mp h
  rw [← hdc, isWs_toLower]
  exact stripWs_head _ d hd

/-- A normalized string has no trailing whitespace. -/
theorem norm_getLast (s : Str) :
    ∀ c, (normalize_name s).getLast? = some c → isWsChar c = false := by
  intro c h
  unfold normalize_name at h
  rw [List.getLast?_map] at h
  obtain ⟨d, hd, hdc⟩ := Option.map_eq_some'.mp h
  rw [← hdc, isWs_toLower]
  exact stripWs_getLast _ d hd

/-- A normalized string is entirely lowercase: mapping `Char.toLower`
over it changes nothing. -/
theorem norm_map_toLower (s : Str) :
    (normalize_name s).map Char.toLower = normalize_name s := by
  unfold normalize_name
  rw [List.map_map]
  exact List.map_congr_left (fun a _ => toLower_idem a)

/-- C7: the normalization function of `sort_books.py` is idempotent: for
every input string, `normalize_name (normalize_name x) = normalize_name x`,
where `normalize_name` collapses runs of `.`, `_`, `-` to a single space,
collapses whitespace runs to one space, trims, and lowercases. -/
theorem normalize_name_idem (s : Str) :
    normalize_name (normalize_name s) = normalize_name s := by
  show ((stripWs (replRunsAux isWsChar ' ' false
      (replRunsAux isSepChar ' ' false (normalize_name s)))).map Char.toLower)
    = normalize_name s
  rw [replRunsAux_eq_self (norm_no_sep s) false]
  rw [replRunsAux_fix (norm_ws_space s) (norm_chain s) (fun hf => by cases hf)]
  rw [stripWs_eq_self (norm_head s) (norm_getLast s)]
  exact norm_map_toLower s

/-! ## Pattern scenarios (claims C4 and C10) -/

/-- C4: the `Pattern` built from the raw rule text `"PHP*MySQL|PHP"`
matches the normalized text `"php and mysql tutorial"` through its
wildcard alternative (both normalized `*`-segments occur as substrings,
order-independent), and its priority is 9, the length of the alternative
`"PHP*MySQL"`, not 3. -/
theorem pattern_php_mysql_scenario (rx : Rx) :
    (mkPattern (chars ("PHP*MySQL|PHP"))).alternatives
        = [chars ("PHP*MySQL"), chars ("PHP")] ∧
    (mkPattern (chars ("PHP*MySQL|PHP"))).priority = 9 ∧
    Pattern.matches rx (mkPattern (chars ("PHP*MySQL|PHP")))
        (chars ("php and mysql tutorial")) = true :=
  ⟨rfl, rfl, rfl⟩

/-- C10: the `Pattern` built from the raw rule text `"*"` is a wildcard
alternative with no non-empty literal segment, so the requirement that
every segment occur in the text is vacuous and it matches every input
text. -/
theorem pattern_star_matches_everything (rx : Rx) (text : Str) :
    Pattern.matches rx (mkPattern (chars ("*"))) text = true :=
  rfl

/-! ## Size lemmas for the match results (claim C1) -/

mutual
/-- Every group in a `match_file_recursively` result is a subterm of the
searched group (in particular no larger than it). -/
theorem sizeOf_mem_match_file (rx : Rx) (fp : Str) :
    ∀ (g x : Group), x ∈ match_file_recursively rx fp g → sizeOf x ≤ sizeOf g := by
  intro g x hx
  cases g with
  | mk n subs inc exc =>
    rw [match_file_recursively] at hx
    cases hm : match_file_list rx fp subs with
    | nil =>
      rw [hm] at hx
      by_cases hf : file_matches_group_name rx fp (Group.mk n subs inc exc)
      · rw [if_pos hf] at hx
        rcases List.mem_singleton.mp hx with rfl
        exact Nat.le_refl _
      · rw [if_neg hf] at hx
        cases hx
    | cons m ms =>
      rw [hm] at hx
      have hx2 : x ∈ match_file_list rx fp subs := by rw [hm]; exact hx
      have h1 := sizeOf_mem_match_list rx fp subs x hx2
      have h2 : sizeOf subs < sizeOf (Group.mk n subs inc exc) := by
        simp only [Group.mk.sizeOf_spec]
        omega
      omega

/-- Every group in a `match_file_list` result is strictly smaller than
the searched list. -/
theorem sizeOf_mem_match_list (rx : Rx) (fp : Str) :
    ∀ (gs : List Group) (x : Group), x ∈ match_file_list rx fp gs → sizeOf x < sizeOf gs := by
  intro gs x hx
  cases gs with
  | nil => rw [match_file_list] at hx; cases hx
  | cons g gs' =>
    rw [match_file_list] at hx
    rcases List.mem_append.mp hx with h1 | h2
    · have := sizeOf_mem_match_file rx fp g x h1
      simp only [List.cons.sizeOf_spec]
      omega
    · have := sizeOf_mem_match_list rx fp gs' x h2
      simp only [List.cons.sizeOf_spec]
      omega
end

/-- C1: when the depth-first left-to-right descent into a group's
subgroups produces at least one match, `match_file_recursively` returns
exactly that recursive result, and the group itself is not in the result
(irrespective of its own include/exclude patterns). -/
theorem descendant_matches_shadow_parent (rx : Rx) (fp : Str) (g : Group)
    (h : match_file_list rx fp g.subgroups ≠ []) :
    match_file_recursively rx fp g = match_file_list rx fp g.subgroups ∧
    g ∉ match_file_recursively rx fp g := by
  have heq : match_file_recursively rx fp g = match_file_list rx fp g.subgroups := by
    cases g with
    | mk n subs inc exc =>
      rw [match_file_recursively]
      cases hm : match_file_list rx fp subs with
      | nil => exact absurd hm h
      | cons m ms => rw [show (Group.mk n subs inc exc).subgroups = subs from rfl, hm]
  refine ⟨heq, fun hmem => ?_⟩
  rw [heq] at hmem
  have h1 := sizeOf_mem_match_list rx fp g.subgroups g hmem
  have h2 : sizeOf g.subgroups < sizeOf g := by
    cases g with
    | mk n subs inc exc =>
      simp only [Group.mk.sizeOf_spec, Group.subgroups]
      omega
  omega

/-- Witness for C1: for the file `Python_Basics.pdf` and the parent group
`IT` (whose own include rule `Python` matches the file), the descendant
`Python` matches, the returned list is exactly the descendant result, and
the parent is not in it. -/
theorem descendant_matches_shadow_parent_witness :
    match_file_list rxFail wFilePython wGParent.subgroups ≠ [] ∧
    match_file_recursively rxFail wFilePython wGParent
      = match_file_list rxFail wFilePython wGParent.subgroups ∧
    wGParent ∉ match_file_recursively rxFail wFilePython wGParent := by
  have h : match_file_list rxFail wFilePython wGParent.subgroups ≠ [] :=
    List.cons_ne_nil wGPython []
  exact ⟨h, (descendant_matches_shadow_parent rxFail wFilePython wGParent h).1,
    (descendant_matches_shadow_parent rxFail wFilePython wGParent h).2⟩

/-! ## Empty-include safety (claim C5) -/

mutual
/-- Every group appearing in a `match_file_recursively` result has a
non-empty include pattern list. -/
theorem mem_match_file_include (rx : Rx) (fp : Str) :
    ∀ (g x : Group), x ∈ match_file_recursively rx fp g →
      x.include_patterns ≠ [] := by
  intro g x hx
  cases g with
  | mk n subs inc exc =>
    rw [match_file_recursively] at hx
    cases hm : match_file_list rx fp subs with
    | nil =>
      rw [hm] at hx
      by_cases hf : file_matches_group_name rx fp (Group.mk n subs inc exc)
      · rw [if_pos hf] at hx
        rcases List.mem_singleton.mp hx with rfl
        intro hinc
        unfold file_matches_group_name at hf
        rw [if_pos (by rw [hinc]; rfl)] at hf
        cases hf
      · rw [if_neg hf] at hx
        cases hx
    | cons m ms =>
      rw [hm] at hx
      exact mem_match_list_include rx fp subs x (by rw [hm]; exact hx)

/-- Every group appearing in a `match_file_list` result has a non-empty
include pattern list. -/
theorem mem_match_list_include (rx : Rx) (fp : Str) :
    ∀ (gs : List Group) (x : Group), x ∈ match_file_list rx fp gs →
      x.include_patterns ≠ [] := by
  intro gs x hx
  cases gs with
  | nil => rw [match_file_list] at hx; cases hx
  | cons g gs' =>
    rw [match_file_list] at hx
    rcases List.mem_append.mp hx with h1 | h2
    · exact mem_match_file_include rx fp g x h1
    · exact mem_match_list_include rx fp gs' x h2
end

/-- C5: a group whose include pattern list is empty never appears
directly in any match result — neither in the result for a single root
nor in the concatenated result for a forest of roots — regardless of its
name, exclude patterns, or position in the tree. -/
theorem empty_include_never_matches (rx : Rx) (fp : Str) (g root : Group)
    (roots : List Group) (hg : g.include_patterns = []) :
    g ∉ match_file_recursively rx fp root ∧ g ∉ match_file_list rx fp roots :=
  ⟨fun hmem => mem_match_file_include rx fp root g hmem hg,
   fun hmem => mem_match_list_include rx fp roots g hmem hg⟩

/-- Witness for C5: the pattern-less `Container` group is absent from its
own subtree's match result for `Python_Basics.pdf`, while its descendant
`Python` does appear. -/
theorem empty_include_never_matches_witness :
    wGContainer.include_patterns = [] ∧
    wGPython ∈ match_file_recursively rxFail wFilePython wGContainer ∧
    wGContainer ∉ match_file_recursively rxFail wFilePython wGContainer ∧
    wGContainer ∉ match_file_list rxFail wFilePython [wGContainer] := by
  refine ⟨rfl, ?_, ?_, ?_⟩
  · show wGPython ∈ [wGPython]
    exact List.mem_singleton.mpr rfl
  · exact (empty_include_never_matches rxFail wFilePython wGContainer wGContainer
      [wGContainer] rfl).1
  · exact (empty_include_never_matches rxFail wFilePython wGContainer wGContainer
      [wGContainer] rfl).2

/-! ## Direct matching characterization (claim C3) -/

/-- C3: for a group with no descendant matches, the group matches
directly iff it has at least one include pattern, some include pattern
matches the normalized file name, and no exclude pattern matches; the
one-element result `[g]` is returned exactly in that case, and a file
matching both an include and an exclude pattern of the group yields the
empty result. -/
theorem direct_match_characterization (rx : Rx) (fp : Str) (g : Group)
    (hsubs : match_file_list rx fp g.subgroups = []) :
    (file_matches_group_name rx fp g = true ↔
      (g.include_patterns ≠ [] ∧
       (∃ p ∈ g.include_patterns, p.matches rx (fileNorm fp) = true) ∧
       (∀ p ∈ g.exclude_patterns, p.matches rx (fileNorm fp) = false))) ∧
    (match_file_recursively rx fp g = [g] ↔
      file_matches_group_name rx fp g = true) ∧
    (((∃ p ∈ g.include_patterns, p.matches rx (fileNorm fp) = true) ∧
      (∃ q ∈ g.exclude_patterns, q.matches rx (fileNorm fp) = true)) →
      match_file_recursively rx fp g = []) := by
  have hchar : file_matches_group_name rx fp g = true ↔
      (g.include_patterns ≠ [] ∧
       (∃ p ∈ g.include_patterns, p.matches rx (fileNorm fp) = true) ∧
       (∀ p ∈ g.exclude_patterns, p.matches rx (fileNorm fp) = false)) := by
    unfold file_matches_group_name
    by_cases hA : g.include_patterns.isEmpty
    · rw [if_pos hA]
      rw [List.isEmpty_iff] at hA
      simp [hA]
    · rw [if_neg hA]
      rw [List.isEmpty_iff] at hA
      by_cases hB : g.include_patterns.any (fun p => p.matches rx (fileNorm fp))
      · rw [if_neg (by rw [hB]; simp)]
        by_cases hC : g.exclude_patterns.any (fun p => p.matches rx (fileNorm fp))
        · rw [if_pos hC]
          constructor
          · intro hf; cases hf
          · rintro ⟨-, -, hexc⟩
            obtain ⟨q, hq, hqm⟩ := List.any_eq_true.mp hC
            rw [hexc q hq] at hqm
            cases hqm
        · rw [if_neg hC]
          constructor
          · intro _
            refine ⟨hA, List.any_eq_true.mp hB, fun p hp => ?_⟩
            cases hm : Pattern.matches rx p (fileNorm fp) with
            | false => rfl
            | true => exact absurd (List.any_eq_true.mpr ⟨p, hp, hm⟩) hC
          · intro _; rfl
      · rw [if_pos (by rw [Bool.eq_false_iff.mpr hB]; rfl)]
        constructor
        · intro hf; cases hf
        · rintro ⟨-, hinc, -⟩
          exact absurd (List.any_eq_true.mpr hinc) hB
  refine ⟨hchar, ?_, ?_⟩
  · cases g with
    | mk n subs inc exc =>
      have hsubs' : match_file_list rx fp subs = [] := hsubs
      rw [match_file_recursively, hsubs']
      by_cases hf : file_matches_group_name rx fp (Group.mk n subs inc exc)
      · simp [hf]
      · simp only [Bool.not_eq_true] at hf
        simp [hf]
  · rintro ⟨hinc, hexc⟩
    have hf : file_matches_group_name rx fp g = false := by
      unfold file_matches_group_name
      split_ifs with hA hB hC
      · rfl
      · rfl
      · rfl
      · exact absurd (List.any_eq_true.mpr
          (by obtain ⟨q, hq, hqm⟩ := hexc; exact ⟨q, hq, hqm⟩)) hC
    cases g with
    | mk n subs inc exc =>
      have hsubs' : match_file_list rx fp subs = [] := hsubs
      rw [match_file_recursively, hsubs']
      simp [hf]

/-- Witness for C3: `Office_on_Linux.epub` against the `Office` group
(include `Office`, exclude `Linux`): the include rule matches, the
exclude rule matches, and the match result is empty. -/
theorem direct_match_characterization_witness :
    match_file_list rxFail wFileOffice wGOffice.subgroups = [] ∧
    match_file_recursively rxFail wFileOffice wGOffice = [] := by
  refine ⟨rfl, ?_⟩
  exact (direct_match_characterization rxFail wFileOffice wGOffice rfl).2.2
    ⟨⟨mkPattern (chars ("Office")), List.mem_singleton.mpr rfl, rfl⟩,
     ⟨mkPattern (chars ("Linux")), List.mem_singleton.mpr rfl, rfl⟩⟩

/-! ## Classification depends only on the stripped base name (claim C9) -/

/-- Lemma: `file_matches_group_name` factors through the normalized
extension-stripped base name. -/
theorem file_matches_congr (rx : Rx) {p1 p2 : Str}
    (h : fileNorm p1 = fileNorm p2) (g : Group) :
    file_matches_group_name rx p1 g = file_matches_group_name rx p2 g := by
  unfold file_matches_group_name
  rw [h]

mutual
/-- Lemma: `match_file_recursively` factors through the normalized
extension-stripped base name. -/
theorem match_file_congr (rx : Rx) (p1 p2 : Str) (h : fileNorm p1 = fileNorm p2) :
    ∀ g : Group, match_file_recursively rx p1 g = match_file_recursively rx p2 g := by
  intro g
  cases g with
  | mk n subs inc exc =>
    rw [match_file_recursively, match_file_recursively,
      match_list_congr rx p1 p2 h subs, file_matches_congr rx h]

/-- Lemma: `match_file_list` factors through the normalized extension-stripped
base name. -/
theorem match_list_congr (rx : Rx) (p1 p2 : Str) (h : fileNorm p1 = fileNorm p2) :
    ∀ gs : List Group, match_file_list rx p1 gs = match_file_list rx p2 gs := by
  intro gs
  cases gs with
  | nil => rw [match_file_list, match_file_list]
  | cons g gs' =>
    rw [match_file_list, match_file_list, match_file_congr rx p1 p2 h g,
      match_list_congr rx p1 p2 h gs']
end

/-- C9: classification is a function of the base name with its extension
stripped: two paths with equal extension-stripped base names receive
identical match lists from every group and every group forest — the
directory components and the extension never influence the result. -/
theorem classification_ignores_directory_and_extension (rx : Rx)
    (p1 p2 : Str) (g : Group) (gs : List Group)
    (h : splitext_root (basename p1) = splitext_root (basename p2)) :
    match_file_recursively rx p1 g = match_file_recursively rx p2 g ∧
    match_file_list rx p1 gs = match_file_list rx p2 gs := by
  have hn : fileNorm p1 = fileNorm p2 := by unfold fileNorm; rw [h]
  exact ⟨match_file_congr rx p1 p2 hn g, match_list_congr rx p1 p2 hn gs⟩

/-- Witness for C9: `books/a/Python_Basics.pdf` and
`other/Python_Basics.djvu` have the same stripped base name and the same
match list against the `IT` tree. -/
theorem classification_ignores_directory_and_extension_witness :
    splitext_root (basename wPathA) = splitext_root (basename wPathB) ∧
    match_file_recursively rxFail wPathA wGParent
      = match_file_recursively rxFail wPathB wGParent :=
  ⟨rfl, (classification_ignores_directory_and_extension rxFail wPathA wPathB
      wGParent [] rfl).1⟩

/-! ## The placement planner's stable priority sort (claim C2) -/

/-- Membership in an insertion. -/
theorem mem_insertByPriority {z x : Group} {l : List Group}
    (h : z ∈ insertByPriority x l) : z = x ∨ z ∈ l := by
  induction l with
  | nil =>
    rw [insertByPriority] at h
    rcases List.mem_singleton.mp h with rfl
    exact Or.inl rfl
  | cons y ys ih =>
    rw [insertByPriority] at h
    by_cases hlt : maxIncludePriority x < maxIncludePriority y
    · rw [if_pos hlt] at h
      rcases List.mem_cons.mp h with rfl | h2
      · exact Or.inr (List.mem_cons_self _ _)
      · rcases ih h2 with h3 | h4
        · exact Or.inl h3
        · exact Or.inr (List.mem_cons_of_mem _ h4)
    · rw [if_neg hlt] at h
      rcases List.mem_cons.mp h with rfl | h2
      · exact Or.inl rfl
      · exact Or.inr h2

/-- Insertion produces a permutation of the cons. -/
theorem insertByPriority_perm (x : Group) (l : List Group) :
    (insertByPriority x l).Perm (x :: l) := by
  induction l with
  | nil => rw [insertByPriority]
  | cons y ys ih =>
    rw [insertByPriority]
    by_cases hlt : maxIncludePriority x < maxIncludePriority y
    · rw [if_pos hlt]
      exact (ih.cons y).trans (List.Perm.swap x y ys)
    · rw [if_neg hlt]

/-- The sort is a permutation of its input. -/
theorem sortByPriority_perm (l : List Group) : (sortByPriority l).Perm l := by
  induction l with
  | nil => rw [sortByPriority]
  | cons x xs ih =>
    rw [sortByPriority]
    exact (insertByPriority_perm x (sortByPriority xs)).trans (ih.cons x)

/-- Insertion preserves descending sortedness by priority. -/
theorem insertByPriority_pairwise {x : Group} {l : List Group}
    (h : l.Pairwise (fun a b => maxIncludePriority b ≤ maxIncludePriority a)) :
    (insertByPriority x l).Pairwise
      (fun a b => maxIncludePriority b ≤ maxIncludePriority a) := by
  induction l with
  | nil =>
    rw [insertByPriority]
    exact List.pairwise_singleton _ _
  | cons y ys ih =>
    rw [insertByPriority]
    rcases List.pairwise_cons.mp h with ⟨hy, hys⟩
    by_cases hlt : maxIncludePriority x < maxIncludePriority y
    · rw [if_pos hlt]
      refine List.pairwise_cons.mpr ⟨?_, ih hys⟩
      intro z hz
      rcases mem_insertByPriority hz with rfl | hz'
      · exact Nat.le_of_lt hlt
      · exact hy z hz'
    · rw [if_neg hlt]
      refine List.pairwise_cons.mpr ⟨?_, h⟩
      intro z hz
      rcases List.mem_cons.mp hz with rfl | hz'
      · exact Nat.le_of_not_lt hlt
      · have h1 := hy z hz'
        have h2 := Nat.le_of_not_lt hlt
        omega

/-- The sort output is descending in priority. -/
theorem sortByPriority_pairwise (l : List Group) :
    (sortByPriority l).Pairwise
      (fun a b => maxIncludePriority b ≤ maxIncludePriority a) := by
  induction l with
  | nil => rw [sortByPriority]; exact List.Pairwise.nil
  | cons x xs ih =>
    rw [sortByPriority]
    exact insertByPriority_pairwise ih

/-- Stability of the insertion at each priority value: the inserted
element goes in front of the equal-priority elements already present
(which all come later in the original order). -/
theorem insertByPriority_filter (x : Group) (l : List Group) (k : Nat) :
    (insertByPriority x l).filter (fun g => maxIncludePriority g == k)
      = if maxIncludePriority x == k
        then x :: l.filter (fun g => maxIncludePriority g == k)
        else l.filter (fun g => maxIncludePriority g == k) := by
  induction l with
  | nil =>
    rw [insertByPriority]
    by_cases hx : maxIncludePriority x == k <;> simp [List.filter, hx]
  | cons y ys ih =>
    rw [insertByPriority]
    by_cases hlt : maxIncludePriority x < maxIncludePriority y
    · rw [if_pos hlt, List.filter_cons, ih]
      cases hy : (maxIncludePriority y == k) with
      | false =>
        cases hx : (maxIncludePriority x == k) with
        | false => simp [hy, hx, List.filter_cons]
        | true => simp [hy, hx, List.filter_cons]
      | true =>
        cases hx : (maxIncludePriority x == k) with
        | false => simp [hy, hx, List.filter_cons]
        | true =>
          rw [beq_iff_eq] at hx hy
          omega
    · rw [if_neg hlt, List.filter_cons]

/-- Stability of the sort: at each priority value the sorted list keeps
exactly the original subsequence of that priority. -/
theorem sortByPriority_filter (l : List Group) (k : Nat) :
    (sortByPriority l).filter (fun g => maxIncludePriority g == k)
      = l.filter (fun g => maxIncludePriority g == k) := by
  induction l with
  | nil => rw [sortByPriority]
  | cons x xs ih =>
    rw [sortByPriority, insertByPriority_filter, List.filter_cons]
    by_cases hx : maxIncludePriority x == k
    · rw [if_pos hx, if_pos hx, ih]
    · rw [if_neg hx, if_neg hx, ih]

/-- C2: the planner skips a file with no matches (no placement, no
error); otherwise it sorts the matched groups descending by maximum
include-pattern priority with a stable sort — the sorted list is a
permutation of the matches, descending in priority, and at every priority
value it preserves the original order — and takes the head as the primary
placement and the remainder, in sorted order, as the secondaries; in
particular, of two groups with equal maximum priority the earlier one
becomes primary. -/
theorem plan_stable_priority_selection :
    (plan [] = none) ∧
    (∀ ms : List Group, plan ms = none → ms = []) ∧
    (∀ (ms : List Group) (g : Group) (rest : List Group),
      plan ms = some (g, rest) →
        g :: rest = sortByPriority ms ∧
        (g :: rest).Perm ms ∧
        (g :: rest).Pairwise (fun a b => maxIncludePriority b ≤ maxIncludePriority a) ∧
        (∀ k, (g :: rest).filter (fun x => maxIncludePriority x == k)
            = ms.filter (fun x => maxIncludePriority x == k))) ∧
    (∀ g1 g2 : Group, maxIncludePriority g1 = maxIncludePriority g2 →
      plan [g1, g2] = some (g1, [g2])) := by
  refine ⟨rfl, ?_, ?_, ?_⟩
  · intro ms hnone
    unfold plan at hnone
    cases hs : sortByPriority ms with
    | nil => exact ((hs ▸ sortByPriority_perm ms).symm).eq_nil
    | cons p rest => rw [hs] at hnone; cases hnone
  · intro ms g rest hsome
    unfold plan at hsome
    cases hs : sortByPriority ms with
    | nil => rw [hs] at hsome; cases hsome
    | cons p rest' =>
      rw [hs] at hsome
      simp only [Option.some.injEq, Prod.mk.injEq] at hsome
      obtain ⟨rfl, rfl⟩ := hsome
      refine ⟨rfl, ?_, ?_, ?_⟩
      · have hperm := sortByPriority_perm ms
        rw [hs] at hperm
        exact hperm
      · have hpw := sortByPriority_pairwise ms
        rw [hs] at hpw
        exact hpw
      · intro k
        have hfil := sortByPriority_filter ms k
        rw [hs] at hfil
        exact hfil
  · intro g1 g2 h12
    simp [plan, sortByPriority, insertByPriority, h12]

/-- Witness for C2: `Kids` and `Biology` carry include rules of equal
priority, and the earlier group `Kids` is selected as primary. -/
theorem plan_stable_priority_selection_witness :
    maxIncludePriority wGKids = maxIncludePriority wGBiology ∧
    plan [wGKids, wGBiology] = some (wGKids, [wGBiology]) :=
  ⟨rfl, plan_stable_priority_selection.2.2.2 wGKids wGBiology rfl⟩

/-! ## Invalid regex alternatives degrade to non-matching (claim C6) -/

/-- C6: a regex alternative whose regular expression fails to compile
never raises to the caller: it contributes `false`, and `matches` of the
pattern equals `matches` of the pattern with that alternative removed, so
the sibling alternatives are still evaluated and a later alternative can
still produce a match. -/
theorem invalid_regex_alternative_degrades (rx : Rx) (text raw bad : Str)
    (alts1 alts2 : List Str) (prio : Nat)
    (hbad : regexMarker.isPrefixOf bad = true)
    (herr : rx (bad.drop regexMarker.length) text = Except.error ()) :
    altMatches rx text bad = false ∧
    Pattern.matches rx (Pattern.mk raw (alts1 ++ bad :: alts2) prio) text
      = Pattern.matches rx (Pattern.mk raw (alts1 ++ alts2) prio) text := by
  have hb : altMatches rx text bad = false := by
    unfold altMatches
    rw [if_pos hbad, herr]
  refine ⟨hb, ?_⟩
  unfold Pattern.matches
  simp only [List.any_append, List.any_cons, hb]
  simp

/-- Witness for C6: with an oracle failing on every regex, the pattern
with alternatives `regex:[` and `PHP` matches `php tutorial` exactly as
the pattern with only `PHP` does — and it does match, via the later
alternative. -/
theorem invalid_regex_alternative_degrades_witness :
    regexMarker.isPrefixOf (chars ("regex:[")) = true ∧
    rxFail ((chars ("regex:[")).drop regexMarker.length) (chars ("php tutorial"))
      = Except.error () ∧
    altMatches rxFail (chars ("php tutorial")) (chars ("regex:[")) = false ∧
    Pattern.matches rxFail
        (Pattern.mk (chars ("regex:[|PHP")) ([] ++ chars ("regex:[") :: [chars ("PHP")]) 8)
        (chars ("php tutorial"))
      = Pattern.matches rxFail
        (Pattern.mk (chars ("regex:[|PHP")) ([] ++ [chars ("PHP")]) 8)
        (chars ("php tutorial")) ∧
    Pattern.matches rxFail
        (Pattern.mk (chars ("regex:[|PHP")) ([] ++ chars ("regex:[") :: [chars ("PHP")]) 8)
        (chars ("php tutorial")) = true := by
  refine ⟨rfl, rfl, ?_, ?_, rfl⟩
  · exact (invalid_regex_alternative_degrades rxFail (chars ("php tutorial"))
      (chars ("regex:[|PHP")) (chars ("regex:[")) [] [chars ("PHP")] 8 rfl rfl).1
  · exact (invalid_regex_alternative_degrades rxFail (chars ("php tutorial"))
      (chars ("regex:[|PHP")) (chars ("regex:[")) [] [chars ("PHP")] 8 rfl rfl).2

/-! ## Construction fails exactly on nameless nodes (claim C8) -/

/-- The child selection inside `build_node` equals building the
effective children of the node. -/
theorem build_children_select (n : ConfigNode) :
    (if n.grpL.isEmpty then build_nodes n.grpU else build_nodes n.grpL)
      = build_nodes (effectiveChildren n) := by
  unfold effectiveChildren
  by_cases h : n.grpL.isEmpty <;> simp [h]

mutual
/-- Lemma: `build_node` fails iff some visited node lacks an effective name. -/
theorem build_node_error_iff (n : ConfigNode) :
    (∃ e, build_node n = Except.error e) ↔
      ∃ m ∈ nodesOf n, nodeNamed m = false := by
  cases n with
  | mk nm gk iL iU eL eU gL gU =>
    rw [build_node, nodesOf]
    cases hname : effectiveName (ConfigNode.mk nm gk iL iU eL eU gL gU) with
    | none =>
      constructor
      · intro _
        refine ⟨ConfigNode.mk nm gk iL iU eL eU gL gU, List.mem_cons_self _ _, ?_⟩
        unfold nodeNamed
        rw [hname]
        rfl
      · intro _
        exact ⟨ConfigurationError.namelessGroup, rfl⟩
    | some name =>
      by_cases hL : gL.isEmpty
      · rw [if_pos hL, if_pos hL]
        constructor
        · intro he
          cases hres : build_nodes gU with
          | error e2 =>
            obtain ⟨m, hm, hmn⟩ := (build_nodes_error_iff gU).mp ⟨e2, hres⟩
            exact ⟨m, List.mem_cons_of_mem _ hm, hmn⟩
          | ok c =>
            rw [hres] at he
            obtain ⟨e, he⟩ := he
            cases he
        · rintro ⟨m, hm, hmn⟩
          rcases List.mem_cons.mp hm with rfl | hm'
          · unfold nodeNamed at hmn
            rw [hname] at hmn
            cases hmn
          · obtain ⟨e2, he2⟩ := (build_nodes_error_iff gU).mpr ⟨m, hm', hmn⟩
            rw [he2]
            exact ⟨e2, rfl⟩
      · rw [if_neg hL, if_neg hL]
        constructor
        · intro he
          cases hres : build_nodes gL with
          | error e2 =>
            obtain ⟨m, hm, hmn⟩ := (build_nodes_error_iff gL).mp ⟨e2, hres⟩
            exact ⟨m, List.mem_cons_of_mem _ hm, hmn⟩
          | ok c =>
            rw [hres] at he
            obtain ⟨e, he⟩ := he
            cases he
        · rintro ⟨m, hm, hmn⟩
          rcases List.mem_cons.mp hm with rfl | hm'
          · unfold nodeNamed at hmn
            rw [hname] at hmn
            cases hmn
          · obtain ⟨e2, he2⟩ := (build_nodes_error_iff gL).mpr ⟨m, hm', hmn⟩
            rw [he2]
            exact ⟨e2, rfl⟩

/-- Lemma: `build_nodes` fails iff some visited node lacks an effective name. -/
theorem build_nodes_error_iff (ns : List ConfigNode) :
    (∃ e, build_nodes ns = Except.error e) ↔
      ∃ m ∈ nodesOfList ns, nodeNamed m = false := by
  cases ns with
  | nil =>
    rw [build_nodes, nodesOfList]
    simp
  | cons n ns' =>
    rw [build_nodes, nodesOfList]
    constructor
    · intro he
      cases hn : build_node n with
      | error e1 =>
        obtain ⟨m, hm, hmn⟩ := (build_node_error_iff n).mp ⟨e1, hn⟩
        exact ⟨m, List.mem_append_left _ hm, hmn⟩
      | ok g =>
        rw [hn] at he
        cases hns : build_nodes ns' with
        | error e2 =>
          obtain ⟨m, hm, hmn⟩ := (build_nodes_error_iff ns').mp ⟨e2, hns⟩
          exact ⟨m, List.mem_append_right _ hm, hmn⟩
        | ok gs =>
          rw [hns] at he
          obtain ⟨e, he⟩ := he
          cases he
    · rintro ⟨m, hm, hmn⟩
      rcases List.mem_append.mp hm with h1 | h2
      · obtain ⟨e1, he1⟩ := (build_node_error_iff n).mpr ⟨m, h1, hmn⟩
        rw [he1]
        exact ⟨e1, rfl⟩
      · obtain ⟨e2, he2⟩ := (build_nodes_error_iff ns').mpr ⟨m, h2, hmn⟩
        cases hn : build_node n with
        | error e1 => exact ⟨e1, rfl⟩
        | ok g =>
          rw [he2]
          exact ⟨e2, rfl⟩
end

/-- C8: group-forest construction from a configuration forest fails with
a `ConfigurationError` if and only if some visited node lacks an
effective name; when every node has a name, construction succeeds with a
group forest and raises no error. -/
theorem build_fails_iff_nameless (tops : List ConfigNode) :
    ((∃ e, build_groups_from_config tops = Except.error e) ↔
      ∃ m ∈ nodesOfList tops, nodeNamed m = false) ∧
    ((∀ m ∈ nodesOfList tops, nodeNamed m = true) →
      ∃ gs, build_groups_from_config tops = Except.ok gs) := by
  have h1 := build_nodes_error_iff tops
  refine ⟨h1, ?_⟩
  intro hall
  cases hres : build_nodes tops with
  | error e =>
    obtain ⟨m, hm, hmn⟩ := h1.mp ⟨e, hres⟩
    rw [hall m hm] at hmn
    cases hmn
  | ok gs => exact ⟨gs, hres⟩

/-- Witness for C8: the forest whose single root `IT` has a nameless
child fails to build, and the well-named single-node forest builds
successfully. -/
theorem build_fails_iff_nameless_witness :
    (wNodeBad ∈ nodesOfList [wNodeTop]) ∧
    (∃ e, build_groups_from_config [wNodeTop] = Except.error e) ∧
    (∃ gs, build_groups_from_config [wNodeGood] = Except.ok gs) := by
  have hmem : wNodeBad ∈ nodesOfList [wNodeTop] := by
    show wNodeBad ∈ nodesOf wNodeTop ++ nodesOfList []
    refine List.mem_append_left _ ?_
    show wNodeBad ∈ wNodeTop :: nodesOfList [wNodeBad]
    refine List.mem_cons_of_mem _ ?_
    show wNodeBad ∈ nodesOf wNodeBad ++ nodesOfList []
    refine List.mem_append_left _ ?_
    exact List.mem_cons_self _ _
  refine ⟨hmem, ?_, ?_⟩
  · exact (build_fails_iff_nameless [wNodeTop]).1.mpr ⟨wNodeBad, hmem, rfl⟩
  · refine (build_fails_iff_nameless [wNodeGood]).2 ?_
    intro m hm
    have hm' : m ∈ [wNodeGood] := hm
    rcases List.mem_singleton.mp hm' with rfl
    rfl

end SortBooks
